import Mathlib

/-!
Shallow embedding of the icebox execution-introspection kernel pieces under
verification: the PDB symbol module (src/icebox/icebox/core), the register
accessors, and the fdp_san heap-sanitizer plugin (src/icebox/plugins).

Strings coming from the guest or from PDB files are modelled as byte
sequences (`List Nat`, each element a byte value), so that the C byte-wise
comparisons (`operator<` on `string_view`, `strncasecmp`) are rendered
faithfully.
-/

set_option maxHeartbeats 1000000

namespace Icebox

/-- A byte string: the model of `std::string` / `std::string_view` contents. -/
abbrev Bytes := List Nat

namespace Pdb

/-- Model of `struct Sym { size_t name_idx; size_t offset; }`. -/
structure Sym where
  name_idx : Nat
  offset : Nat
  deriving DecidableEq, Repr

/-- Model of `struct Struc { size_t name_idx; size_t size; size_t member_idx; size_t member_end; }`. -/
structure Struc where
  name_idx : Nat
  size : Nat
  member_idx : Nat
  member_end : Nat
  deriving DecidableEq, Repr

/-- Model of `struct Member { size_t name_idx; size_t offset; }`. -/
structure Member where
  name_idx : Nat
  offset : Nat
  deriving DecidableEq, Repr

/-- Model of `symbols::Offset { std::string symbol; size_t offset; }`, the result of
`find_symbol`: a symbol name and the delta from its offset. -/
structure Offset where
  symbol : Bytes
  offset : Nat
  deriving DecidableEq, Repr

/-- The string table lookup `strings_[idx]` (out-of-range yields the empty
string; the built module never indexes out of range). -/
def strAt (strings : List Bytes) (idx : Nat) : Bytes :=
  strings.getD idx []

/-- Byte-wise lexicographic comparison: `std::string_view::operator<`. -/
def bytesLt : Bytes → Bytes → Bool
  | [], [] => false
  | [], _ :: _ => true
  | _ :: _, [] => false
  | a :: as, b :: bs => if a < b then true else if b < a then false else bytesLt as bs

/-- Model of `insert_ordered(vec, item)`: insertion at `std::upper_bound` with the
predicate `a.offset < b.offset`, i.e. before the first element whose offset
is strictly greater than the item's. -/
def insert_ordered (vec : List Sym) (item : Sym) : List Sym :=
  match vec with
  | [] => [item]
  | x :: xs => if item.offset < x.offset then item :: x :: xs else x :: insert_ordered xs item

/-- The offset-ordered symbol list built by `Pdb::setup`, which starts from an
empty vector and calls `insert_ordered` once per symbol, in input order. -/
def build_ordered (items : List Sym) : List Sym :=
  items.foldl insert_ordered []

/-- Model of `Pdb::find_symbol(offset)`: `std::lower_bound` on the offset-ordered list
(the first entry with `offset ≤ entry.offset`, i.e. the boundary of the
`entry.offset < offset` partition), then the source's four cases: empty/end
(fall back to the last entry via `rbegin`), exact hit, begin (absent), or the
predecessor of a strictly greater entry. `make_cursor` builds the result as
`(name, offset - entry.offset)`. -/
def find_symbol (strings : List Bytes) (syms : List Sym) (offset : Nat) : Option Offset :=
  let lo := syms.takeWhile fun s => s.offset < offset
  let hi := syms.dropWhile fun s => s.offset < offset
  match hi with
  | [] =>
    match lo.getLast? with
    | none => none
    | some s => some ⟨strAt strings s.name_idx, offset - s.offset⟩
  | s :: _ =>
    if s.offset = offset then some ⟨strAt strings s.name_idx, offset - s.offset⟩
    else
      match lo.getLast? with
      | none => none
      | some p => some ⟨strAt strings p.name_idx, offset - p.offset⟩

/-- Model of `walk_e`: the enumeration-control result of a `list_symbols` callback. -/
inductive walk_e
  | next
  | stop
  deriving DecidableEq, Repr

/-- Model of `Pdb::list_symbols(on_sym)`: visit the offset-ordered entries in list
order, breaking after the first callback that answers `stop`. The model
returns the visited `(name, offset)` sequence. -/
def list_symbols (strings : List Bytes) (syms : List Sym) (on_sym : Bytes → Nat → walk_e) :
    List (Bytes × Nat) :=
  match syms with
  | [] => []
  | s :: rest =>
    if on_sym (strAt strings s.name_idx) s.offset = walk_e.stop then
      [(strAt strings s.name_idx, s.offset)]
    else
      (strAt strings s.name_idx, s.offset) :: list_symbols strings rest on_sym

/-- The anonymous-namespace `binary_search(strings, vec, item)`:
`std::lower_bound` with `strings[a.name_idx] < item` (the boundary of that
partition on the name-sorted vector), absent at the end iterator or when the
found name differs from `item`, byte-for-byte. Polymorphic over the entry
type through its `name_idx` projection, as the C++ template is. -/
def binary_search (strings : List Bytes) (nameIdx : α → Nat) (vec : List α) (item : Bytes) :
    Option α :=
  match vec.dropWhile (fun a => bytesLt (strAt strings (nameIdx a)) item) with
  | [] => none
  | x :: _ => if strAt strings (nameIdx x) = item then some x else none

/-- Model of `Pdb::symbol_offset(symbol)`: name-sorted binary search, then the entry's
offset. -/
def symbol_offset (strings : List Bytes) (symbols : List Sym) (symbol : Bytes) : Option Nat :=
  (binary_search strings Sym.name_idx symbols symbol).map Sym.offset

/-- Model of `Pdb::struc_size(struc)`. -/
def struc_size (strings : List Bytes) (strucs : List Struc) (struc : Bytes) : Option Nat :=
  (binary_search strings Struc.name_idx strucs struc).map Struc.size

/-- ASCII `tolower`, as used by `strncasecmp` in the C locale. -/
def tolower_byte (c : Nat) : Nat :=
  if 65 ≤ c ∧ c ≤ 90 then c + 32 else c

/-- Model of `is_lowercase_equal(a, b)`: equal sizes and `strnicmp(a, b, size) == 0`,
i.e. byte-wise equality after ASCII lower-casing (the arena strings carry no
interior nul, so `strncasecmp` never stops early). -/
def is_lowercase_equal (a b : Bytes) : Bool :=
  a.length == b.length && a.map tolower_byte == b.map tolower_byte

/-- The member slice `[member_idx, member_end)` of the flat `members_` list
owned by a structure entry. -/
def member_slice (members : List Member) (st : Struc) : List Member :=
  (members.drop st.member_idx).take (st.member_end - st.member_idx)

/-- Model of `Pdb::member_offset(struc, member)`: find the structure by (exact-name)
binary search, then scan its member slice for the first
`is_lowercase_equal` hit and return that member's offset. -/
def member_offset (strings : List Bytes) (strucs : List Struc) (members : List Member)
    (struc member : Bytes) : Option Nat :=
  match binary_search strings Struc.name_idx strucs struc with
  | none => none
  | some st =>
    ((member_slice members st).find? fun m =>
      is_lowercase_equal member (strAt strings m.name_idx)).map Member.offset

/-- Model of `Pdb::struc_members(struc, on_member)`: the member names passed to the
callback, in slice order. -/
def struc_members (strings : List Bytes) (strucs : List Struc) (members : List Member)
    (struc : Bytes) : List Bytes :=
  match binary_search strings Struc.name_idx strucs struc with
  | none => []
  | some st => (member_slice members st).map fun m => strAt strings m.name_idx

/-- Model of `Pdb::struc_names(on_struc)`: every structure name, in vector order. -/
def struc_names (strings : List Bytes) (strucs : List Struc) : List Bytes :=
  strucs.map fun st => strAt strings st.name_idx

/-- Model of `emplace_string(pdb, item)`: append the item's bytes and a nul terminator
at the end of the flat arena `data_strings_`. -/
def emplace_string (data : Bytes) (item : Bytes) : Bytes :=
  data ++ item ++ [0]

/-- The arena after `Pdb::setup` has emplaced every name, in order. -/
def build_arena (names : List Bytes) : Bytes :=
  names.foldl emplace_string []

/-- The string-table rebuild loop of `Pdb::setup`
(`for(i = 0; i < data_strings_.size(); i += strings_.back().size() + 1)`):
at cursor `i`, emplace the nul-terminated view starting at `i`, then advance
by its length plus one. Each iteration advances the cursor by at least one,
so `data.length` rounds of fuel always complete the loop. -/
def rebuild_strings_loop (data : Bytes) (i fuel : Nat) : List Bytes :=
  match fuel with
  | 0 => []
  | fuel + 1 =>
    if i < data.length then
      let s := (data.drop i).takeWhile fun b => b ≠ 0
      s :: rebuild_strings_loop data (i + s.length + 1) fuel
    else []

/-- The rebuilt `strings_` table: the loop from cursor 0. -/
def rebuild_strings (data : Bytes) : List Bytes :=
  rebuild_strings_loop data 0 data.length

/-- Model of `(l.drop i).take n`: the byte slice `[i, i + n)` of a buffer. -/
def slice (l : Bytes) (i n : Nat) : Bytes :=
  (l.drop i).take n

/-- Model of `read_le16`: two bytes, little-endian. -/
def read_le16 (l : Bytes) (i : Nat) : Nat :=
  l.getD i 0 + 256 * l.getD (i + 1) 0

/-- Model of `read_le32`: four bytes, little-endian. -/
def read_le32 (l : Bytes) (i : Nat) : Nat :=
  l.getD i 0 + 256 * l.getD (i + 1) 0 + 65536 * l.getD (i + 2) 0 + 16777216 * l.getD (i + 3) 0

/-- Model of `write_be16`: two bytes, big-endian. -/
def write_be16 (v : Nat) : Bytes :=
  [v / 256 % 256, v % 256]

/-- Model of `write_be32`: four bytes, big-endian. -/
def write_be32 (v : Nat) : Bytes :=
  [v / 16777216 % 256, v / 65536 % 256, v / 256 % 256, v % 256]

/-- The 16 GUID bytes assembled by `read_pdb` from the header at `p`:
the first three fields are read little-endian and written back big-endian
(`write_be32/16` over `read_le32/16`), `Data4` is copied as is. -/
def guid_bytes (l : Bytes) (p : Nat) : Bytes :=
  write_be32 (read_le32 l (p + 4)) ++ write_be16 (read_le16 l (p + 8)) ++
    write_be16 (read_le16 l (p + 10)) ++ slice l (p + 12) 8

/-- Model of `hex::chars_upper`. -/
def hex_upper_chars : List Char :=
  ['0', '1', '2', '3', '4', '5', '6', '7', '8', '9', 'A', 'B', 'C', 'D', 'E', 'F']

/-- Model of `hex::convert(dst, hex::chars_upper, src, n)`: two uppercase hex digits
per byte, high nibble first. -/
def hex_upper (bytes : Bytes) : String :=
  String.mk (bytes.foldr
    (fun b acc => hex_upper_chars.getD (b / 16 % 16) '0' :: hex_upper_chars.getD (b % 16) '0' :: acc)
    [])

/-- Model of `std::isprint` in the C locale: the ASCII graphic characters and space. -/
def is_print (b : Nat) : Bool :=
  decide (32 ≤ b ∧ b ≤ 126)

/-- Model of `read_pdb_name(ptr, end)`: the name bytes, rejected when any is not
printable. -/
def read_pdb_name (name : Bytes) : Option Bytes :=
  if name.all is_print then some name else none

/-- The first index at or after `start` holding a nul byte (the `memchr` of
`read_pdb`; the source passes a length that reaches past the scanned buffer,
so the in-buffer search up to the end is the defined behaviour). -/
def find_nul_from (l : Bytes) (start : Nat) : Option Nat :=
  (List.range l.length).find? fun j => decide (start ≤ j) && l.getD j 0 == 0

/-- Whether the four bytes at `i` are 'R','S','D','S'. -/
def is_rsds_at (l : Bytes) (i : Nat) : Bool :=
  l.getD i 0 == 82 && l.getD (i + 1) 0 == 83 && l.getD (i + 2) 0 == 68 && l.getD (i + 3) 0 == 83

/-- The Boyer-Moore-Horspool `search` of `read_pdb`: the first RSDS match at
or after `start` (a match needs all four bytes inside the buffer). -/
def find_rsds_from (l : Bytes) (start : Nat) : Option Nat :=
  (List.range l.length).find? fun i => decide (start ≤ i) && is_rsds_at l i

/-- Model of `struct PdbCtx { std::string guid; std::string name; }`. -/
structure PdbCtx where
  guid : String
  name : String
  deriving DecidableEq, Repr

/-- Outcome of one `read_pdb` loop iteration at an RSDS candidate: success,
a hard failure (header too small or missing nul terminator, both returned
as absent by the source), or a soft failure (unprintable name, which makes
the source rescan from the next byte). -/
inductive ParseRes
  | ok (ctx : PdbCtx)
  | hardFail
  | softFail
  deriving DecidableEq, Repr

/-- Bytes rendered as the characters of a `std::string`. -/
def bytes_to_string (b : Bytes) : String :=
  String.mk (b.map Char.ofNat)

/-- One `read_pdb` iteration at RSDS position `p`: check
`size ≥ 4 + 16 + 4 + 2`, find the nul terminating the name, assemble the
endian-swapped GUID, the decimal age and the name. -/
def parse_rsds_at (l : Bytes) (p : Nat) : ParseRes :=
  if l.length - p < 26 then ParseRes.hardFail
  else
    match find_nul_from l (p + 24) with
    | none => ParseRes.hardFail
    | some q =>
      match read_pdb_name (slice l (p + 24) (q - (p + 24))) with
      | some nb =>
        ParseRes.ok
          ⟨hex_upper (guid_bytes l p) ++ Nat.repr (read_le32 l (p + 20)), bytes_to_string nb⟩
      | none => ParseRes.softFail

/-- The `while(true)` retry loop of `read_pdb`: scan for the next RSDS magic,
parse there, and on an unprintable name restart just past the match. The
fuel only bounds the loop; `l.length + 1` iterations always suffice since
the scan start strictly increases and never exceeds the length. -/
def read_pdb_loop (l : Bytes) (start fuel : Nat) : Option PdbCtx :=
  match fuel with
  | 0 => none
  | fuel + 1 =>
    match find_rsds_from l start with
    | none => none
    | some p =>
      match parse_rsds_at l p with
      | ParseRes.ok ctx => some ctx
      | ParseRes.hardFail => none
      | ParseRes.softFail => read_pdb_loop l (p + 1) fuel

/-- Model of `read_pdb(src, src_size)` over the image bytes. -/
def read_pdb (l : Bytes) : Option PdbCtx :=
  read_pdb_loop l 0 (l.length + 1)

/-- Model of `symbols::Identity{ name, id }`, filled by `identify_pdb` as
`{ pdb->name, pdb->guid }`. -/
structure Identity where
  name : String
  id : String
  deriving DecidableEq, Repr

/-- Model of `symbols::identify_pdb(span, reader)` once the image bytes have been
read into the buffer (the channel read itself is outside this model; when it
fails the source returns absent before parsing). -/
def identify_pdb (buffer : Bytes) : Option Identity :=
  (read_pdb buffer).map fun c => ⟨c.name, c.guid⟩

end Pdb

namespace symbols

/-- Model of `fs::path::operator/` with the portable separator, as produced by
`generic_string`. -/
def path_join (a b : String) : String :=
  a ++ "/" ++ b

/-- The loaded module handle returned by `symbols::make_pdb`: the resolved
path and the requested build id. -/
structure Module where
  filename : String
  guid : String
  deriving DecidableEq, Repr

/-- Model of `symbols::make_pdb(module, guid)`: read `_NT_SYMBOL_PATH`; absent
environment means an absent result before any path is formed; otherwise
resolve `<root>/<module>/<guid>/<module>` and run `Pdb::setup` there
(abstracted as the `setup_ok` predicate over the path and guid), yielding
absent exactly when the load fails. -/
def make_pdb (nt_symbol_path : Option String) (setup_ok : String → String → Bool)
    (module guid : String) : Option Module :=
  match nt_symbol_path with
  | none => none
  | some root =>
    let path := path_join (path_join (path_join root module) guid) module
    if setup_ok path guid then some ⟨path, guid⟩ else none

end symbols

namespace registers

/-- Model of `registers::read(core, reg)`: the FDP channel read yields an optional
value; the accessor collapses the absent case to `0`
(`return ret ? *ret : 0;`). The channel outcome is the parameter. -/
def read (channel : Option Nat) : Nat :=
  match channel with
  | some v => v
  | none => 0

/-- Model of `registers::read_msr(core, reg)`: same collapsing shape as `read`. -/
def read_msr (channel : Option Nat) : Nat :=
  match channel with
  | some v => v
  | none => 0

/-- Model of `registers::write` / `registers::write_msr`: the channel's success flag is
returned unchanged. -/
def write (channel_ok : Bool) : Bool :=
  channel_ok

end registers

namespace FdpSan

/-- Model of `constexpr uint64_t add_size = 0x20;` -/
def add_size : Nat := 32

/-- Model of `constexpr uint64_t half_add_size = add_size / 2;` -/
def half_add_size : Nat := add_size / 2

/-- Modulus of the guest's 64-bit integers. -/
def two64 : Nat := 2 ^ 64

/-- Model of `uint64_t` addition (wraps at `2^64`). -/
def add64 (a b : Nat) : Nat := (a + b) % two64

/-- Model of `uint64_t` subtraction (wraps at `2^64`; both operands below `2^64`). -/
def sub64 (a b : Nat) : Nat := (a + (two64 - b % two64)) % two64

/-- Model of `struct ctx_t { uint64_t addr; thread_t thread; }` (threads compare by id,
so the thread is kept as its id). -/
structure ctx_t where
  addr : Nat
  thread : Nat
  deriving DecidableEq, Repr

/-- Model of `struct heap_ctx_t { nt::PVOID HeapHandle; ctx_t ctx; }`. -/
structure heap_ctx_t where
  HeapHandle : Nat
  ctx : ctx_t
  deriving DecidableEq, Repr

/-- The mutable plugin state inside `plugins::FdpSan::Data`: the two
in-flight thread sets, the tracked-allocation map `heap_datas`
(`heap_ctx_t → SIZE_T`, modelled associatively) and the return-breakpoint
contexts `ret_ctxs` (keys only; the owned breakpoint handle carries no
observable data). -/
structure Data where
  threads_allocating : List Nat
  threads_reallocating : List Nat
  heap_datas : List (heap_ctx_t × Nat)
  ret_ctxs : List ctx_t
  deriving DecidableEq, Repr

/-- Model of `std::unordered_set<uint64_t>::emplace`: no-op when already present. -/
def set_insert (s : List Nat) (x : Nat) : List Nat :=
  if x ∈ s then s else x :: s

/-- Model of `std::unordered_set<uint64_t>::erase`. -/
def set_erase (s : List Nat) (x : Nat) : List Nat :=
  s.filter fun y => y ≠ x

/-- Model of `is_present(u, thread)`: `u.find(thread.id) != u.end()`. -/
def is_present (u : List Nat) (thread : Nat) : Bool :=
  decide (thread ∈ u)

/-- Model of `unordered_map` lookup on `heap_datas`. -/
def heap_find (m : List (heap_ctx_t × Nat)) (k : heap_ctx_t) : Option Nat :=
  (m.find? fun p => decide (p.1 = k)).map Prod.snd

/-- Model of `is_addr_tracked(d, heap_ctx)`: membership in `heap_datas`. -/
def is_addr_tracked (d : Data) (heap_ctx : heap_ctx_t) : Bool :=
  (heap_find d.heap_datas heap_ctx).isSome

/-- Model of `heap_datas.emplace(k, v)`: `std::unordered_map::emplace` inserts only
when the key is absent. -/
def heap_emplace (m : List (heap_ctx_t × Nat)) (k : heap_ctx_t) (v : Nat) :
    List (heap_ctx_t × Nat) :=
  if (heap_find m k).isSome then m else (k, v) :: m

/-- Model of `heap_datas.erase(k)`. -/
def heap_erase (m : List (heap_ctx_t × Nat)) (k : heap_ctx_t) : List (heap_ctx_t × Nat) :=
  m.filter fun p => decide (p.1 ≠ k)

/-- Model of `ret_ctxs.emplace(k, bp)` keyed on `ctx_t`. -/
def ret_insert (s : List ctx_t) (k : ctx_t) : List ctx_t :=
  if k ∈ s then s else k :: s

/-- Model of `ret_ctxs.erase(k)`. -/
def ret_erase (s : List ctx_t) (k : ctx_t) : List ctx_t :=
  s.filter fun y => y ≠ k

/-- Observable guest-side actions performed by a callback: an argument
rewrite through `os->write_arg`, the installation of a thread-filtered
breakpoint (`state.set_breakpoint(addr, thread, on_ret)`), or a write of the
RAX return register. -/
inductive Effect
  | writeArg (idx : Nat) (val : Nat)
  | setBp (addr : Nat) (thread : Nat)
  | writeRax (val : Nat)
  deriving DecidableEq, Repr

/-- The engine surface an entry callback consults: the current thread
(`os->thread_current()`), whether each `write_arg` call succeeds, and the
return address read from the guest stack (`get_return_address`, absent when
RSP reads as 0 or the stack read fails). -/
structure Env where
  thread_current : Option Nat
  write_arg_ok : Nat → Bool
  return_addr : Option Nat

/-- Model of `change_Size(d, arg_index, size)`: a `write_arg` attempt; the effect is
recorded only when the channel write succeeds. -/
def change_Size (env : Env) (arg_index : Nat) (size : Nat) : Bool × List Effect :=
  if env.write_arg_ok arg_index then (true, [Effect.writeArg arg_index size]) else (false, [])

/-- Model of `change_BaseAddress(d, arg_index, addr)`: same shape as `change_Size`. -/
def change_BaseAddress (env : Env) (arg_index : Nat) (addr : Nat) : Bool × List Effect :=
  if env.write_arg_ok arg_index then (true, [Effect.writeArg arg_index addr]) else (false, [])

/-- The engine surface of a return callback: the RAX value delivered by
`regs.read` (a failed channel read already collapsed to 0 by
`registers::read`) and whether the RAX write-back succeeds. -/
structure RetEnv where
  rax : Nat
  write_rax_ok : Bool

/-- Model of `add_to_ret_val(d, size)`: read RAX (0 meaning failure), write back
`rax + size`, and return the shifted value; absent on a zero read or a
failed write. -/
def add_to_ret_val (env : RetEnv) (size : Nat) : Option Nat × List Effect :=
  if env.rax = 0 then (none, [])
  else if env.write_rax_ok then
    (some (add64 env.rax size), [Effect.writeRax (add64 env.rax size)])
  else (none, [])

/-- The `register_RtlpAllocateHeapInternal` entry callback: resolve the
current thread, filter on both in-flight sets, flag the thread as
allocating, rewrite `Size` (argument 1) to `Size + add_size`, read the
return address and install a thread-filtered return breakpoint recorded in
`ret_ctxs`. Every early exit returns 0 exactly as the success path does. -/
def on_RtlpAllocateHeapInternal (env : Env) (d : Data) (_HeapHandle Size : Nat) :
    Data × List Effect :=
  match env.thread_current with
  | none => (d, [])
  | some tid =>
    if is_present d.threads_reallocating tid || is_present d.threads_allocating tid then
      (d, [])
    else
      let d1 := { d with threads_allocating := set_insert d.threads_allocating tid }
      match change_Size env 1 (add64 Size add_size) with
      | (false, _) => (d1, [])
      | (true, e1) =>
        match env.return_addr with
        | none => (d1, e1)
        | some ra =>
          ({ d1 with ret_ctxs := ret_insert d1.ret_ctxs ⟨ra, tid⟩ },
            e1 ++ [Effect.setBp ra tid])

/-- Shared tail of the `register_RtlpReAllocateHeapInternal` callback after
the tracked-address branch: `change_Size(3, Size + add_size)`, then the
return-address read and return-breakpoint installation. -/
def realloc_tail (env : Env) (d : Data) (acc : List Effect) (tid Size : Nat) :
    Data × List Effect :=
  match change_Size env 3 (add64 Size add_size) with
  | (false, _) => (d, acc)
  | (true, e1) =>
    match env.return_addr with
    | none => (d, acc ++ e1)
    | some ra =>
      ({ d with ret_ctxs := ret_insert d.ret_ctxs ⟨ra, tid⟩ },
        acc ++ e1 ++ [Effect.setBp ra tid])

/-- The `register_RtlpReAllocateHeapInternal` entry callback: flag the thread
as reallocating (without checking it first), unshift and untrack a tracked
`BaseAddress` (argument 2), then rewrite `Size` (argument 3) and install the
return breakpoint. -/
def on_RtlpReAllocateHeapInternal (env : Env) (d : Data)
    (HeapHandle BaseAddress Size : Nat) : Data × List Effect :=
  match env.thread_current with
  | none => (d, [])
  | some tid =>
    let d1 := { d with threads_reallocating := set_insert d.threads_reallocating tid }
    let key : heap_ctx_t := ⟨HeapHandle, ⟨BaseAddress, tid⟩⟩
    if is_addr_tracked d1 key then
      match change_BaseAddress env 2 (sub64 BaseAddress half_add_size) with
      | (false, _) => (d1, [])
      | (true, e0) =>
        realloc_tail env { d1 with heap_datas := heap_erase d1.heap_datas key } e0 tid Size
    else
      realloc_tail env d1 [] tid Size

/-- The `register_RtlFreeHeap` entry callback: tracked addresses are left
untouched (early `true`), untracked ones have `BaseAddress` (argument 2)
rewritten to `BaseAddress - half_add_size` and are erased from the map. -/
def on_RtlFreeHeap (env : Env) (d : Data) (HeapHandle BaseAddress : Nat) :
    Data × List Effect × Bool :=
  match env.thread_current with
  | none => (d, [], false)
  | some tid =>
    let key : heap_ctx_t := ⟨HeapHandle, ⟨BaseAddress, tid⟩⟩
    if is_addr_tracked d key then (d, [], true)
    else
      match change_BaseAddress env 2 (sub64 BaseAddress half_add_size) with
      | (false, _) => (d, [], false)
      | (true, e0) => ({ d with heap_datas := heap_erase d.heap_datas key }, e0, true)

/-- The `register_RtlSizeHeap` entry callback: tracked addresses left
untouched, untracked ones unshifted and given a return breakpoint. -/
def on_RtlSizeHeap (env : Env) (d : Data) (HeapHandle BaseAddress : Nat) :
    Data × List Effect × Nat :=
  match env.thread_current with
  | none => (d, [], 0)
  | some tid =>
    let key : heap_ctx_t := ⟨HeapHandle, ⟨BaseAddress, tid⟩⟩
    if is_addr_tracked d key then (d, [], 0)
    else
      match change_BaseAddress env 2 (sub64 BaseAddress half_add_size) with
      | (false, _) => (d, [], 0)
      | (true, e0) =>
        match env.return_addr with
        | none => (d, e0, 0)
        | some ra =>
          ({ d with ret_ctxs := ret_insert d.ret_ctxs ⟨ra, tid⟩ },
            e0 ++ [Effect.setBp ra tid], 1)

/-- The `register_RtlSetUserValueHeap` entry callback. -/
def on_RtlSetUserValueHeap (env : Env) (d : Data) (HeapHandle BaseAddress : Nat) :
    Data × List Effect × Bool :=
  match env.thread_current with
  | none => (d, [], false)
  | some tid =>
    let key : heap_ctx_t := ⟨HeapHandle, ⟨BaseAddress, tid⟩⟩
    if is_addr_tracked d key then (d, [], false)
    else
      match change_BaseAddress env 2 (sub64 BaseAddress half_add_size) with
      | (false, _) => (d, [], false)
      | (true, e0) => (d, e0, true)

/-- The `register_RtlGetUserInfoHeap` entry callback (same branching as
`RtlSetUserValueHeap`). -/
def on_RtlGetUserInfoHeap (env : Env) (d : Data) (HeapHandle BaseAddress : Nat) :
    Data × List Effect × Bool :=
  match env.thread_current with
  | none => (d, [], false)
  | some tid =>
    let key : heap_ctx_t := ⟨HeapHandle, ⟨BaseAddress, tid⟩⟩
    if is_addr_tracked d key then (d, [], false)
    else
      match change_BaseAddress env 2 (sub64 BaseAddress half_add_size) with
      | (false, _) => (d, [], false)
      | (true, e0) => (d, e0, true)

/-- Model of `on_return_RtlpAllocateHeapInternal(d, addr, thread, HeapHandle, Size)`:
fire only when `(addr, thread)` is a live return context; shift RAX by
`half_add_size`, record the shifted address as a tracked allocation of the
original `Size`, and drop the return context. On a failed RAX shift the
context is left in place (the source returns before the erase). -/
def on_return_RtlpAllocateHeapInternal (env : RetEnv) (d : Data)
    (addr thread HeapHandle Size : Nat) : Data × List Effect :=
  let ret_ctx : ctx_t := ⟨addr, thread⟩
  if ret_ctx ∈ d.ret_ctxs then
    match add_to_ret_val env half_add_size with
    | (none, effs) => (d, effs)
    | (some alloc_addr, effs) =>
      ({ d with
          heap_datas := heap_emplace d.heap_datas ⟨HeapHandle, ⟨alloc_addr, thread⟩⟩ Size,
          ret_ctxs := ret_erase d.ret_ctxs ret_ctx }, effs)
  else (d, [])

/-- Model of `on_return_RtlSizeHeap(d, addr, thread)`: shift RAX by `add_size`
(result unchecked) and drop the return context. -/
def on_return_RtlSizeHeap (env : RetEnv) (d : Data) (addr thread : Nat) :
    Data × List Effect :=
  let ret_ctx : ctx_t := ⟨addr, thread⟩
  if ret_ctx ∈ d.ret_ctxs then
    let r := add_to_ret_val env add_size
    ({ d with ret_ctxs := ret_erase d.ret_ctxs ret_ctx }, r.2)
  else (d, [])

/-- The lambda installed by the alloc entry callback at the return
breakpoint: clear the in-flight flag, then run
`on_return_RtlpAllocateHeapInternal`. -/
def alloc_return_hook (env : RetEnv) (d : Data)
    (return_addr thread HeapHandle Size : Nat) : Data × List Effect :=
  on_return_RtlpAllocateHeapInternal env
    { d with threads_allocating := set_erase d.threads_allocating thread }
    return_addr thread HeapHandle Size

/-- The lambda installed by the realloc entry callback at the return
breakpoint: clear the reallocating flag, then run the same
`on_return_RtlpAllocateHeapInternal`. -/
def realloc_return_hook (env : RetEnv) (d : Data)
    (return_addr thread HeapHandle Size : Nat) : Data × List Effect :=
  on_return_RtlpAllocateHeapInternal env
    { d with threads_reallocating := set_erase d.threads_reallocating thread }
    return_addr thread HeapHandle Size

end FdpSan

/-! ## Helper lemmas -/

theorem takeWhile_append_of_all {p : α → Bool} :
    ∀ (l₁ l₂ : List α), (∀ x ∈ l₁, p x = true) →
      (l₁ ++ l₂).takeWhile p = l₁ ++ l₂.takeWhile p
  | [], _, _ => rfl
  | x :: xs, l₂, h => by
    have hx : p x = true := h x (List.mem_cons_self x xs)
    simp only [List.cons_append, List.takeWhile_cons, hx, if_true]
    exact congrArg (x :: ·) (takeWhile_append_of_all xs l₂ fun y hy => h y (List.mem_cons_of_mem x hy))

theorem dropWhile_append_of_all {p : α → Bool} :
    ∀ (l₁ l₂ : List α), (∀ x ∈ l₁, p x = true) →
      (l₁ ++ l₂).dropWhile p = l₂.dropWhile p
  | [], _, _ => rfl
  | x :: xs, l₂, h => by
    have hx : p x = true := h x (List.mem_cons_self x xs)
    simp only [List.cons_append, List.dropWhile_cons, hx, if_true]
    exact dropWhile_append_of_all xs l₂ fun y hy => h y (List.mem_cons_of_mem x hy)

theorem mem_of_getLast?_eq_some {l : List α} {a : α} (h : l.getLast? = some a) : a ∈ l := by
  rcases List.mem_getLast?_eq_getLast (show a ∈ l.getLast? from h) with ⟨hne, rfl⟩
  exact List.getLast_mem hne

theorem dropWhile_head_false {p : α → Bool} :
    ∀ {l : List α} {x : α} {xs : List α}, l.dropWhile p = x :: xs → p x = false := by
  intro l
  induction l with
  | nil => intro x xs h; simp [List.dropWhile] at h
  | cons a t ih =>
    intro x xs h
    rw [List.dropWhile_cons] at h
    by_cases hp : p a
    · rw [if_pos hp] at h
      exact ih h
    · rw [if_neg hp] at h
      injection h with h1 _
      subst h1
      exact Bool.eq_false_iff.mpr hp

theorem mem_of_mem_insert_ordered {l : List Pdb.Sym} {it y : Pdb.Sym}
    (h : y ∈ Pdb.insert_ordered l it) : y ∈ l ∨ y = it := by
  induction l with
  | nil =>
    simp only [Pdb.insert_ordered, List.mem_singleton] at h
    exact Or.inr h
  | cons x xs ih =>
    simp only [Pdb.insert_ordered] at h
    by_cases hlt : it.offset < x.offset
    · rw [if_pos hlt] at h
      rcases List.mem_cons.mp h with h | h
      · exact Or.inr h
      · exact Or.inl h
    · rw [if_neg hlt] at h
      rcases List.mem_cons.mp h with h | h
      · exact Or.inl (h ▸ List.mem_cons_self x xs)
      · rcases ih h with h | h
        · exact Or.inl (List.mem_cons_of_mem x h)
        · exact Or.inr h

theorem pairwise_insert_ordered {l : List Pdb.Sym} {it : Pdb.Sym}
    (h : l.Pairwise fun a b => a.offset ≤ b.offset) :
    (Pdb.insert_ordered l it).Pairwise fun a b => a.offset ≤ b.offset := by
  induction l with
  | nil => simp [Pdb.insert_ordered]
  | cons x xs ih =>
    rw [List.pairwise_cons] at h
    simp only [Pdb.insert_ordered]
    by_cases hlt : it.offset < x.offset
    · rw [if_pos hlt]
      refine List.Pairwise.cons ?_ (List.Pairwise.cons h.1 h.2)
      intro y hy
      rcases List.mem_cons.mp hy with rfl | hy
      · exact Nat.le_of_lt hlt
      · exact Nat.le_trans (Nat.le_of_lt hlt) (h.1 y hy)
    · rw [if_neg hlt]
      refine List.Pairwise.cons ?_ (ih h.2)
      intro y hy
      rcases mem_of_mem_insert_ordered hy with hy | rfl
      · exact h.1 y hy
      · exact Nat.le_of_not_lt hlt

theorem pairwise_build_ordered_aux :
    ∀ (items : List Pdb.Sym) (acc : List Pdb.Sym),
      (acc.Pairwise fun a b => a.offset ≤ b.offset) →
      (items.foldl Pdb.insert_ordered acc).Pairwise fun a b => a.offset ≤ b.offset
  | [], _, h => h
  | it :: rest, acc, h =>
    pairwise_build_ordered_aux rest (Pdb.insert_ordered acc it) (pairwise_insert_ordered h)

theorem two64_eq : FdpSan.two64 = 18446744073709551616 := by
  norm_num [FdpSan.two64]

theorem add64_of_lt {a b : Nat} (h : a + b < FdpSan.two64) : FdpSan.add64 a b = a + b := by
  rw [FdpSan.add64, Nat.mod_eq_of_lt h]

theorem sub64_half {a : Nat} (h1 : FdpSan.half_add_size ≤ a) (h2 : a < FdpSan.two64) :
    FdpSan.sub64 a FdpSan.half_add_size = a - 16 := by
  have e : FdpSan.half_add_size = 16 := rfl
  rw [e] at h1
  rw [two64_eq] at h2
  rw [FdpSan.sub64, e, two64_eq]
  omega

theorem heap_erase_of_untracked {m : List (FdpSan.heap_ctx_t × Nat)} {k : FdpSan.heap_ctx_t}
    (h : FdpSan.heap_find m k = none) : FdpSan.heap_erase m k = m := by
  rw [FdpSan.heap_find] at h
  have hf : List.find? (fun p => decide (p.1 = k)) m = none := by
    cases hef : List.find? (fun p => decide (p.1 = k)) m with
    | none => rfl
    | some v => rw [hef] at h; simp at h
  rw [FdpSan.heap_erase, List.filter_eq_self]
  intro p hp
  simpa using List.find?_eq_none.mp hf p hp

theorem mem_set_insert_self (s : List Nat) (x : Nat) : x ∈ FdpSan.set_insert s x := by
  rw [FdpSan.set_insert]
  by_cases h : x ∈ s
  · rwa [if_pos h]
  · rw [if_neg h]; exact List.mem_cons_self x s

/-- Equation form of `find_symbol` with its two `let`s zeta-reduced, for rewriting. -/
theorem find_symbol_eq (strs : List Bytes) (l : List Pdb.Sym) (q : Nat) :
    Pdb.find_symbol strs l q =
      match l.dropWhile (fun s => decide (s.offset < q)) with
      | [] =>
        match (l.takeWhile (fun s : Pdb.Sym => decide (s.offset < q))).getLast? with
        | none => none
        | some s => some ⟨Pdb.strAt strs s.name_idx, q - s.offset⟩
      | s :: _ =>
        if s.offset = q then some ⟨Pdb.strAt strs s.name_idx, q - s.offset⟩
        else
          match (l.takeWhile (fun s : Pdb.Sym => decide (s.offset < q))).getLast? with
          | none => none
          | some pr => some ⟨Pdb.strAt strs pr.name_idx, q - pr.offset⟩ := rfl

/-- On a sorted list, `find_symbol` is absent exactly when every entry's
offset is strictly greater than the query. -/
theorem find_symbol_none_iff (strs : List Bytes) (l : List Pdb.Sym) (q : Nat)
    (hs : l.Pairwise fun a b => a.offset ≤ b.offset) :
    Pdb.find_symbol strs l q = none ↔ ∀ s ∈ l, q < s.offset := by
  have hsplit :
      l.takeWhile (fun s : Pdb.Sym => decide (s.offset < q)) ++
        l.dropWhile (fun s : Pdb.Sym => decide (s.offset < q)) = l :=
    List.takeWhile_append_dropWhile _ _
  rw [find_symbol_eq]
  cases hdrop : l.dropWhile (fun s : Pdb.Sym => decide (s.offset < q)) with
  | nil =>
    dsimp only
    have htake : l.takeWhile (fun s : Pdb.Sym => decide (s.offset < q)) = l := by
      rw [hdrop, List.append_nil] at hsplit
      exact hsplit
    cases hlast : (l.takeWhile (fun s : Pdb.Sym => decide (s.offset < q))).getLast? with
    | none =>
      have hnil : l = [] := by
        rw [htake] at hlast
        exact List.getLast?_eq_none_iff.mp hlast
      subst hnil
      simp
    | some s =>
      dsimp only
      have hmem : s ∈ l := by
        rw [htake] at hlast
        exact mem_of_getLast?_eq_some hlast
      have hlt : s.offset < q := by
        have hmemtake : s ∈ l.takeWhile fun s : Pdb.Sym => decide (s.offset < q) := by
          rw [htake]
          exact hmem
        have := List.mem_takeWhile_imp hmemtake
        simpa using this
      constructor
      · intro h
        exact absurd h (by simp)
      · intro h
        exact absurd (h s hmem) (Nat.not_lt.mpr (Nat.le_of_lt hlt))
  | cons s rest =>
    dsimp only
    have hmem : s ∈ l := by
      rw [← hsplit, hdrop]
      exact List.mem_append_right _ (List.mem_cons_self s rest)
    have hnotlt : ¬ s.offset < q := by
      have := dropWhile_head_false hdrop
      simpa using this
    by_cases heq : s.offset = q
    · rw [if_pos heq]
      constructor
      · intro h
        exact absurd h (by simp)
      · intro h
        exact absurd (h s hmem) (by omega)
    · rw [if_neg heq]
      cases hlast : (l.takeWhile (fun s : Pdb.Sym => decide (s.offset < q))).getLast? with
      | none =>
        dsimp only
        have htake : l.takeWhile (fun s : Pdb.Sym => decide (s.offset < q)) = [] :=
          List.getLast?_eq_none_iff.mp hlast
        have hleq : l = s :: rest := by
          rw [← hsplit, htake, hdrop, List.nil_append]
        constructor
        · intro _ x hx
          rw [hleq] at hx hs
          rcases List.mem_cons.mp hx with rfl | hx
          · omega
          · have := (List.pairwise_cons.mp hs).1 x hx
            omega
        · intro _
          rfl
      | some pr =>
        dsimp only
        have hprlt : pr.offset < q := by
          have hprmem : pr ∈ l.takeWhile fun s : Pdb.Sym => decide (s.offset < q) :=
            mem_of_getLast?_eq_some hlast
          have := List.mem_takeWhile_imp hprmem
          simpa using this
        have hprmem : pr ∈ l := by
          rw [← hsplit]
          exact List.mem_append_left _ (mem_of_getLast?_eq_some hlast)
        constructor
        · intro h
          exact absurd h (by simp)
        · intro h
          exact absurd (h pr hprmem) (by omega)

/-- On a list whose strict lower part is `l₁`, querying exactly at `s.offset`
returns `s` (the head of the partition boundary) with delta 0. -/
theorem find_symbol_at_boundary (strs : List Bytes) (l₁ l₂ : List Pdb.Sym) (s : Pdb.Sym)
    (hlt : ∀ x ∈ l₁, x.offset < s.offset) :
    Pdb.find_symbol strs (l₁ ++ s :: l₂) s.offset = some ⟨Pdb.strAt strs s.name_idx, 0⟩ := by
  rw [find_symbol_eq]
  have hdrop : (l₁ ++ s :: l₂).dropWhile (fun x : Pdb.Sym => decide (x.offset < s.offset)) =
      s :: l₂ := by
    rw [dropWhile_append_of_all l₁ (s :: l₂) (fun x hx => by simpa using hlt x hx)]
    rw [List.dropWhile_cons]
    simp
  rw [hdrop]
  simp

/-- Querying strictly between two adjacent entries returns the lower entry
and the distance to it. -/
theorem find_symbol_between (strs : List Bytes) (l₁ l₂ : List Pdb.Sym) (s₁ s₂ : Pdb.Sym)
    (d : Nat) (hall : ∀ x ∈ l₁, x.offset ≤ s₁.offset) (hd : 0 < d)
    (hgap : s₁.offset + d < s₂.offset) :
    Pdb.find_symbol strs (l₁ ++ s₁ :: s₂ :: l₂) (s₁.offset + d) =
      some ⟨Pdb.strAt strs s₁.name_idx, d⟩ := by
  have hassoc : l₁ ++ s₁ :: s₂ :: l₂ = (l₁ ++ [s₁]) ++ s₂ :: l₂ := by simp
  have hallq : ∀ x ∈ l₁ ++ [s₁],
      (fun x : Pdb.Sym => decide (x.offset < s₁.offset + d)) x = true := by
    intro x hx
    rcases List.mem_append.mp hx with hx | hx
    · have := hall x hx
      simp only [decide_eq_true_eq]
      omega
    · rcases List.mem_singleton.mp hx with rfl
      simp only [decide_eq_true_eq]
      omega
  rw [find_symbol_eq, hassoc]
  have hdrop : ((l₁ ++ [s₁]) ++ s₂ :: l₂).dropWhile
      (fun x : Pdb.Sym => decide (x.offset < s₁.offset + d)) = s₂ :: l₂ := by
    rw [dropWhile_append_of_all _ _ hallq, List.dropWhile_cons]
    have : ¬ s₂.offset < s₁.offset + d := by omega
    simp [this]
  have htake : ((l₁ ++ [s₁]) ++ s₂ :: l₂).takeWhile
      (fun x : Pdb.Sym => decide (x.offset < s₁.offset + d)) = l₁ ++ [s₁] := by
    rw [takeWhile_append_of_all _ _ hallq, List.takeWhile_cons]
    have : ¬ s₂.offset < s₁.offset + d := by omega
    simp [this]
  rw [hdrop, htake]
  dsimp only
  have hne : ¬ s₂.offset = s₁.offset + d := by omega
  rw [if_neg hne, List.getLast?_concat]
  simp

/-- Querying strictly above the last entry's offset falls through to the
end-iterator case and its `rbegin` fallback: the last entry is returned with
the distance to it. -/
theorem find_symbol_above_last (strs : List Bytes) (l₁ : List Pdb.Sym) (s : Pdb.Sym)
    (q : Nat) (hs : (l₁ ++ [s]).Pairwise fun a b => a.offset ≤ b.offset)
    (hq : s.offset < q) :
    Pdb.find_symbol strs (l₁ ++ [s]) q = some ⟨Pdb.strAt strs s.name_idx, q - s.offset⟩ := by
  have hallp : ∀ x ∈ l₁ ++ [s], (fun x : Pdb.Sym => decide (x.offset < q)) x = true := by
    intro x hx
    rcases List.mem_append.mp hx with hx | hx
    · have hxle : x.offset ≤ s.offset :=
        (List.pairwise_append.mp hs).2.2 x hx s (List.mem_singleton_self s)
      simp only [decide_eq_true_eq]
      omega
    · rcases List.mem_singleton.mp hx with rfl
      simp only [decide_eq_true_eq]
      omega
  rw [find_symbol_eq]
  have hdrop : (l₁ ++ [s]).dropWhile (fun x : Pdb.Sym => decide (x.offset < q)) = [] := by
    rw [List.dropWhile_eq_nil_iff]
    intro x hx
    simpa using hallp x hx
  have htake : (l₁ ++ [s]).takeWhile (fun x : Pdb.Sym => decide (x.offset < q)) =
      l₁ ++ [s] := by
    rw [List.takeWhile_eq_self_iff]
    intro x hx
    simpa using hallp x hx
  rw [hdrop]
  dsimp only
  rw [htake, List.getLast?_concat]

/-! ## C1: find_symbol nearest-lower-or-equal lookup -/

/-- C1 counterexample: in the module built by `insert_ordered` from three
symbols with offsets 5, 5, 10 (names `A`, `B`, `C`), entries 1 and 2 are
consecutive in offset order with `offset[2] - offset[1] = 5 > 0`, yet
`find_symbol(offset[1] + 0)` returns name `A` (the first entry tied at
offset 5), not name `B` as the claim requires for entry index 1. -/
theorem C1_counterexample :
    Pdb.build_ordered [⟨0, 5⟩, ⟨1, 5⟩, ⟨2, 10⟩] = [⟨0, 5⟩, ⟨1, 5⟩, ⟨2, 10⟩]
    ∧ (Pdb.build_ordered [⟨0, 5⟩, ⟨1, 5⟩, ⟨2, 10⟩]).get? 1 = some ⟨1, 5⟩
    ∧ (Pdb.build_ordered [⟨0, 5⟩, ⟨1, 5⟩, ⟨2, 10⟩]).get? 2 = some ⟨2, 10⟩
    ∧ Pdb.strAt [[65], [66], [67]] 1 = [66]
    ∧ Pdb.find_symbol [[65], [66], [67]] (Pdb.build_ordered [⟨0, 5⟩, ⟨1, 5⟩, ⟨2, 10⟩]) 5 ≠
        some ⟨[66], 0⟩
    ∧ Pdb.find_symbol [[65], [66], [67]] (Pdb.build_ordered [⟨0, 5⟩, ⟨1, 5⟩, ⟨2, 10⟩]) 5 =
        some ⟨[65], 0⟩ := by
  decide

/-- C1 (amended): on every sorted symbol list (hence on every built module),
`find_symbol(q)` keeps the full nearest-lower-or-equal guarantee, with the
tie-break at an exact hit the only point changed from the original claim:
it is absent exactly when every entry's offset is strictly greater than `q`
(including the empty module); for consecutive entries `i`, `i+1` and
`0 < d < offset[i+1] - offset[i]` it returns `(name[i], d)`; at `d = 0` it
returns delta 0 with the name of the first entry carrying that offset —
entry `i` itself whenever no earlier entry ties with it; and for every
query strictly above the last entry's offset it returns the last entry and
the distance to it (the source's `rbegin` fallback). Together the four
parts cover every query: no entry at or below `q`, exact hit, strictly
between two entries, or past the last entry. -/
theorem C1_find_symbol_amended (strs : List Bytes) (l : List Pdb.Sym)
    (hs : l.Pairwise fun a b => a.offset ≤ b.offset) :
    (∀ q, Pdb.find_symbol strs l q = none ↔ ∀ s ∈ l, q < s.offset)
    ∧ (∀ l₁ s₁ s₂ l₂ d, l = l₁ ++ s₁ :: s₂ :: l₂ → 0 < d → s₁.offset + d < s₂.offset →
        Pdb.find_symbol strs l (s₁.offset + d) = some ⟨Pdb.strAt strs s₁.name_idx, d⟩)
    ∧ (∀ l₁ s l₂, l = l₁ ++ s :: l₂ → (∀ x ∈ l₁, x.offset < s.offset) →
        Pdb.find_symbol strs l s.offset = some ⟨Pdb.strAt strs s.name_idx, 0⟩)
    ∧ (∀ l₁ s q, l = l₁ ++ [s] → s.offset < q →
        Pdb.find_symbol strs l q = some ⟨Pdb.strAt strs s.name_idx, q - s.offset⟩) := by
  refine ⟨fun q => find_symbol_none_iff strs l q hs, ?_, ?_, ?_⟩
  · intro l₁ s₁ s₂ l₂ d hdecomp hd hgap
    subst hdecomp
    have hall : ∀ x ∈ l₁, x.offset ≤ s₁.offset := by
      intro x hx
      have := (List.pairwise_append.mp hs).2.2 x hx s₁ (List.mem_cons_self _ _)
      exact this
    exact find_symbol_between strs l₁ l₂ s₁ s₂ d hall hd hgap
  · intro l₁ s l₂ hdecomp hlt
    subst hdecomp
    exact find_symbol_at_boundary strs l₁ l₂ s hlt
  · intro l₁ s q hdecomp hq
    subst hdecomp
    exact find_symbol_above_last strs l₁ s q hs hq

/-- C1 witness: the amended theorem on concrete modules: on offsets 5, 5, 10
the strictly-between case at `5 + 2` yields `(B, 2)` and the exact-hit case
at offset 10 (no earlier tie) yields `(C, 0)`; on offsets 5, 10 the
past-the-end query 12 yields `(B, 2)` through the `rbegin` fallback. -/
theorem C1_find_symbol_amended_witness :
    Pdb.find_symbol [[65], [66], [67]] [⟨0, 5⟩, ⟨1, 5⟩, ⟨2, 10⟩]
        ((⟨1, 5⟩ : Pdb.Sym).offset + 2) = some ⟨[66], 2⟩
    ∧ Pdb.find_symbol [[65], [66], [67]] [⟨0, 5⟩, ⟨1, 5⟩, ⟨2, 10⟩]
        ((⟨2, 10⟩ : Pdb.Sym).offset) = some ⟨[67], 0⟩
    ∧ Pdb.find_symbol [[65], [66]] [⟨0, 5⟩, ⟨1, 10⟩] 12 = some ⟨[66], 2⟩ :=
  ⟨(C1_find_symbol_amended [[65], [66], [67]] [⟨0, 5⟩, ⟨1, 5⟩, ⟨2, 10⟩] (by decide)).2.1
      [⟨0, 5⟩] ⟨1, 5⟩ ⟨2, 10⟩ [] 2 rfl (by decide) (by decide),
    (C1_find_symbol_amended [[65], [66], [67]] [⟨0, 5⟩, ⟨1, 5⟩, ⟨2, 10⟩] (by decide)).2.2.1
      [⟨0, 5⟩, ⟨1, 5⟩] ⟨2, 10⟩ [] rfl (by decide),
    (C1_find_symbol_amended [[65], [66]] [⟨0, 5⟩, ⟨1, 10⟩] (by decide)).2.2.2
      [⟨0, 5⟩] ⟨1, 10⟩ 12 rfl (by decide)⟩

/-! ## C8: ordered symbol storage and enumeration -/

/-- C8: every module built by repeated `insert_ordered` (any insertion
order) has nondecreasing offsets, and `list_symbols` visits exactly the
entries up to and including the first one whose callback answers `stop`
(the whole list when none does), in list order. -/
theorem C8_ordered_symbols (strs : List Bytes) :
    (∀ items : List Pdb.Sym,
        (Pdb.build_ordered items).Pairwise fun a b => a.offset ≤ b.offset)
    ∧ (∀ (syms : List Pdb.Sym) (f : Bytes → Nat → Pdb.walk_e),
        Pdb.list_symbols strs syms f =
          (syms.take ((syms.findIdx fun s =>
              decide (f (Pdb.strAt strs s.name_idx) s.offset = Pdb.walk_e.stop)) + 1)).map
            fun s => (Pdb.strAt strs s.name_idx, s.offset)) := by
  constructor
  · intro items
    exact pairwise_build_ordered_aux items [] List.Pairwise.nil
  · intro syms f
    induction syms with
    | nil => rfl
    | cons s rest ih =>
      by_cases h : f (Pdb.strAt strs s.name_idx) s.offset = Pdb.walk_e.stop
      · simp [Pdb.list_symbols, h, List.findIdx_cons]
      · simp [Pdb.list_symbols, h, List.findIdx_cons, ih]

/-- C8 witness: sortedness of a concretely built module. -/
theorem C8_ordered_symbols_witness :
    (Pdb.build_ordered [⟨0, 5⟩, ⟨1, 3⟩, ⟨2, 9⟩]).Pairwise
      fun a b => a.offset ≤ b.offset :=
  (C8_ordered_symbols []).1 [⟨0, 5⟩, ⟨1, 3⟩, ⟨2, 9⟩]

/-! ## C6: case-sensitive symbols, case-insensitive members -/

/-- A successful `binary_search` returns an entry of the vector whose name
is byte-for-byte equal to the query. -/
theorem binary_search_some {strs : List Bytes} {nameIdx : α → Nat} {vec : List α}
    {item : Bytes} {x : α} (h : Pdb.binary_search strs nameIdx vec item = some x) :
    x ∈ vec ∧ Pdb.strAt strs (nameIdx x) = item := by
  rw [Pdb.binary_search] at h
  cases hdrop : vec.dropWhile (fun a => Pdb.bytesLt (Pdb.strAt strs (nameIdx a)) item) with
  | nil =>
    rw [hdrop] at h
    exact absurd h (by simp)
  | cons y ys =>
    rw [hdrop] at h
    dsimp only at h
    by_cases he : Pdb.strAt strs (nameIdx y) = item
    · rw [if_pos he] at h
      injection h with h
      subst h
      refine ⟨?_, he⟩
      have hsp := List.takeWhile_append_dropWhile
        (p := fun a => Pdb.bytesLt (Pdb.strAt strs (nameIdx a)) item) (l := vec)
      rw [← hsp]
      refine List.mem_append_right _ ?_
      rw [hdrop]
      exact List.mem_cons_self y ys
    · rw [if_neg he] at h
      exact absurd h (by simp)

/-- A successful `symbol_offset` comes from an exactly matching symbol. -/
theorem symbol_offset_some {strs : List Bytes} {symbols : List Pdb.Sym} {q : Bytes}
    {off : Nat} (h : Pdb.symbol_offset strs symbols q = some off) :
    ∃ s ∈ symbols, Pdb.strAt strs s.name_idx = q ∧ s.offset = off := by
  rw [Pdb.symbol_offset] at h
  cases hb : Pdb.binary_search strs Pdb.Sym.name_idx symbols q with
  | none =>
    rw [hb] at h
    exact absurd h (by simp)
  | some s =>
    rw [hb, Option.map_some' _ _] at h
    obtain ⟨hmem, hname⟩ := binary_search_some hb
    exact ⟨s, hmem, hname, by injection h⟩

/-- C6: `symbol_offset` answers only on a byte-for-byte name match (so a
query differing only in case is absent), while `member_offset` answers with
the offset of the first member of the found structure whose name matches
the query up to ASCII case (`strncasecmp` on equal lengths). -/
theorem C6_case_sensitivity (strs : List Bytes) (symbols : List Pdb.Sym)
    (strucs : List Pdb.Struc) (members : List Pdb.Member) :
    (∀ q off, Pdb.symbol_offset strs symbols q = some off →
        ∃ s ∈ symbols, Pdb.strAt strs s.name_idx = q ∧ s.offset = off)
    ∧ (∀ q, (∀ s ∈ symbols, Pdb.strAt strs s.name_idx ≠ q) →
        Pdb.symbol_offset strs symbols q = none)
    ∧ (∀ struc memq off, Pdb.member_offset strs strucs members struc memq = some off →
        ∃ st ∈ strucs, Pdb.strAt strs st.name_idx = struc ∧
          ∃ m ∈ Pdb.member_slice members st,
            Pdb.is_lowercase_equal memq (Pdb.strAt strs m.name_idx) = true ∧ m.offset = off)
    ∧ (∀ struc memq st,
        Pdb.binary_search strs Pdb.Struc.name_idx strucs struc = some st →
        Pdb.member_offset strs strucs members struc memq =
          ((Pdb.member_slice members st).find? fun m =>
            Pdb.is_lowercase_equal memq (Pdb.strAt strs m.name_idx)).map Pdb.Member.offset) := by
  refine ⟨fun q off h => symbol_offset_some h, ?_, ?_, ?_⟩
  · intro q hnone
    cases h : Pdb.symbol_offset strs symbols q with
    | none => rfl
    | some off =>
      obtain ⟨s, hmem, hname, _⟩ := symbol_offset_some h
      exact absurd hname (hnone s hmem)
  · intro struc memq off h
    rw [Pdb.member_offset] at h
    cases hb : Pdb.binary_search strs Pdb.Struc.name_idx strucs struc with
    | none =>
      rw [hb] at h
      exact absurd h (by simp)
    | some st =>
      rw [hb] at h
      dsimp only at h
      obtain ⟨hstmem, hstname⟩ := binary_search_some hb
      cases hf : (Pdb.member_slice members st).find? (fun m =>
          Pdb.is_lowercase_equal memq (Pdb.strAt strs m.name_idx)) with
      | none =>
        rw [hf] at h
        exact absurd h (by simp)
      | some m =>
        rw [hf, Option.map_some' _ _] at h
        have hp := List.find?_some
          (p := fun mm : Pdb.Member => Pdb.is_lowercase_equal memq (Pdb.strAt strs mm.name_idx))
          hf
        exact ⟨st, hstmem, hstname, m, List.mem_of_find?_eq_some hf, by simpa using hp,
          by injection h⟩
  · intro struc memq st hb
    rw [Pdb.member_offset, hb]

/-- C6 witness: a lookup resolving a symbol by its exact name and a member
by a query differing only in case. -/
theorem C6_case_sensitivity_witness :
    (∃ s ∈ [(⟨0, 10⟩ : Pdb.Sym)], Pdb.strAt [[97]] s.name_idx = [97] ∧ s.offset = 10)
    ∧ (∃ st ∈ [(⟨0, 8, 0, 1⟩ : Pdb.Struc)], Pdb.strAt [[83], [109]] st.name_idx = [83] ∧
        ∃ m ∈ Pdb.member_slice [⟨1, 4⟩] st,
          Pdb.is_lowercase_equal [77] (Pdb.strAt [[83], [109]] m.name_idx) = true ∧
            m.offset = 4) :=
  ⟨(C6_case_sensitivity [[97]] [⟨0, 10⟩] [] []).1 [97] 10 (by decide),
    (C6_case_sensitivity [[83], [109]] [] [⟨0, 8, 0, 1⟩] [⟨1, 4⟩]).2.2.1 [83] [77] 4 (by decide)⟩

/-! ## C7: string arena build and stability -/

theorem build_arena_foldl :
    ∀ (names : List Bytes) (acc : Bytes),
      names.foldl Pdb.emplace_string acc = acc ++ (names.map fun n => n ++ [0]).flatten
  | [], acc => by simp
  | n :: rest, acc => by
    simp only [List.foldl_cons, List.map_cons, List.flatten_cons]
    rw [build_arena_foldl rest (Pdb.emplace_string acc n)]
    simp [Pdb.emplace_string]

theorem rebuild_loop_spec :
    ∀ (names : List Bytes) (data : Bytes) (i fuel : Nat),
      (∀ n ∈ names, (0 : Nat) ∉ n) →
      data.drop i = (names.map fun n => n ++ [0]).flatten →
      data.length - i ≤ fuel →
      Pdb.rebuild_strings_loop data i fuel = names := by
  intro names
  induction names with
  | nil =>
    intro data i fuel _ hdrop _
    have hle : data.length ≤ i := by
      simp only [List.map_nil, List.flatten_nil] at hdrop
      exact List.drop_eq_nil_iff.mp hdrop
    cases fuel with
    | zero => rfl
    | succ f =>
      rw [Pdb.rebuild_strings_loop, if_neg (by omega)]
  | cons n rest ih =>
    intro data i fuel hnul hdrop hfuel
    have hjoin : data.drop i = (n ++ [0]) ++ (rest.map fun m => m ++ [0]).flatten := by
      rw [hdrop]
      simp
    have hne : data.drop i ≠ [] := by
      rw [hjoin]
      simp
    have hi : i < data.length := by
      by_contra hcon
      exact hne (List.drop_eq_nil_iff.mpr (by omega))
    cases fuel with
    | zero => omega
    | succ f =>
      rw [Pdb.rebuild_strings_loop, if_pos hi]
      dsimp only
      have hs : (data.drop i).takeWhile (fun b => decide (b ≠ 0)) = n := by
        rw [hjoin, List.append_assoc]
        rw [takeWhile_append_of_all n _ (fun x hx => by
          have hx0 : x ≠ 0 := fun he => hnul n (List.mem_cons_self _ _) (he ▸ hx)
          simpa using hx0)]
        simp
      rw [hs]
      have hdrop2 : data.drop (i + n.length + 1) = (rest.map fun m => m ++ [0]).flatten := by
        have h1 : data.drop (i + n.length + 1) = (data.drop i).drop (n.length + 1) := by
          rw [List.drop_drop, Nat.add_assoc]
        rw [h1, hjoin]
        have h2 : (n ++ [0]).length = n.length + 1 := by simp
        rw [← h2, List.drop_left]
      have := ih data (i + n.length + 1) f
        (fun m hm => hnul m (List.mem_cons_of_mem n hm)) hdrop2 (by omega)
      rw [this]

/-- C7: the arena stores each name once, in emplacement order, each slice
nul-terminated; rebuilding the slice table from the arena recovers exactly
the emplaced names (so the slice for any name index is determined by the
built arena alone and equals that name across all lookups), and emplacement
only ever appends to the arena. -/
theorem C7_string_arena (names : List Bytes) (hnul : ∀ n ∈ names, (0 : Nat) ∉ n) :
    Pdb.rebuild_strings (Pdb.build_arena names) = names
    ∧ (∀ extra : Bytes,
        Pdb.build_arena (names ++ [extra]) = Pdb.build_arena names ++ extra ++ [0])
    ∧ (∀ k, (Pdb.rebuild_strings (Pdb.build_arena names)).get? k = names.get? k)
    ∧ (Pdb.rebuild_strings (Pdb.build_arena names)).length = names.length := by
  have hmain : Pdb.rebuild_strings (Pdb.build_arena names) = names := by
    rw [Pdb.rebuild_strings]
    exact rebuild_loop_spec names (Pdb.build_arena names) 0 (Pdb.build_arena names).length
      hnul (by rw [List.drop_zero, Pdb.build_arena, build_arena_foldl, List.nil_append])
      (by omega)
  refine ⟨hmain, ?_, ?_, ?_⟩
  · intro extra
    rw [Pdb.build_arena, Pdb.build_arena, List.foldl_append]
    simp [Pdb.emplace_string]
  · intro k
    rw [hmain]
  · rw [hmain]

/-- C7 witness: the arena round-trip on two concrete names. -/
theorem C7_string_arena_witness :
    Pdb.rebuild_strings (Pdb.build_arena [[97], [98, 99]]) = [[97], [98, 99]] :=
  (C7_string_arena [[97], [98, 99]] (by decide)).1

/-! ## C4: register reads collapse channel failure to zero -/

/-- C4 counterexample: the claim says a failed channel read surfaces as an
absent outcome distinguishable from a successful zero read; in the source
`registers::read` and `registers::read_msr` return `ret ? *ret : 0`, so the
failed read is the plain value 0, identical to a successful read of 0. -/
theorem C4_counterexample :
    registers.read none = registers.read (some 0)
    ∧ registers.read none = 0
    ∧ registers.read_msr none = registers.read_msr (some 0)
    ∧ registers.read_msr none = 0 := by
  decide

/-- C4 (amended): `registers::read` and `registers::read_msr` return the
channel's value when the channel read succeeds and 0 when it fails, so a
zero result means either a failed read or a successful read of zero; the
write accessors do surface the channel's success flag unchanged. -/
theorem C4_read_amended :
    ∀ channel : Option Nat,
      registers.read channel = channel.getD 0
      ∧ registers.read_msr channel = channel.getD 0
      ∧ (registers.read channel = 0 ↔ channel = none ∨ channel = some 0)
      ∧ ∀ ok : Bool, registers.write ok = ok := by
  intro channel
  rcases channel with _ | v
  · simp [registers.read, registers.read_msr, registers.write]
  · simp [registers.read, registers.read_msr, registers.write, Option.getD]

/-- C4 witness: the amended description evaluated at a successful read. -/
theorem C4_read_amended_witness :
    registers.read (some 3) = (some 3 : Option Nat).getD 0
    ∧ registers.read none = (none : Option Nat).getD 0 :=
  ⟨(C4_read_amended (some 3)).1, (C4_read_amended none).1⟩

/-! ## C9: symbol-cache path resolution -/

/-- C9: `make_pdb(module, guid)` resolves `<root>/<module>/<guid>/<module>`
under the `_NT_SYMBOL_PATH` root; an unset variable yields absent without
consulting the loader at all (the result is the same for every loader), and
a failed PDB load at that path yields absent. -/
theorem C9_make_pdb (setup_ok : String → String → Bool) (module guid root : String) :
    symbols.make_pdb none setup_ok module guid = none
    ∧ (∀ other : String → String → Bool,
        symbols.make_pdb none other module guid = symbols.make_pdb none setup_ok module guid)
    ∧ (setup_ok (root ++ "/" ++ module ++ "/" ++ guid ++ "/" ++ module) guid = false →
        symbols.make_pdb (some root) setup_ok module guid = none)
    ∧ (setup_ok (root ++ "/" ++ module ++ "/" ++ guid ++ "/" ++ module) guid = true →
        symbols.make_pdb (some root) setup_ok module guid =
          some ⟨root ++ "/" ++ module ++ "/" ++ guid ++ "/" ++ module, guid⟩) := by
  refine ⟨rfl, fun _ => rfl, ?_, ?_⟩ <;>
    · intro h
      simp [symbols.make_pdb, symbols.path_join, h]

/-- C9 witness: a concrete resolution through the cache hierarchy. -/
theorem C9_make_pdb_witness :
    symbols.make_pdb (some "r") (fun _ _ => true) "m" "g" = some ⟨"r/m/g/m", "g"⟩ :=
  (C9_make_pdb (fun _ _ => true) "m" "g" "r").2.2.2 rfl

theorem mem_ret_insert_self (s : List FdpSan.ctx_t) (k : FdpSan.ctx_t) :
    k ∈ FdpSan.ret_insert s k := by
  rw [FdpSan.ret_insert]
  by_cases h : k ∈ s
  · rwa [if_pos h]
  · rw [if_neg h]
    exact List.mem_cons_self k s

theorem is_addr_tracked_false_heap_find {d : FdpSan.Data} {k : FdpSan.heap_ctx_t}
    (h : FdpSan.is_addr_tracked d k = false) : FdpSan.heap_find d.heap_datas k = none := by
  rw [FdpSan.is_addr_tracked] at h
  cases he : FdpSan.heap_find d.heap_datas k with
  | none => rfl
  | some v =>
    rw [he] at h
    simp at h

/-! ## C2: the heap-allocation sanitizer rewrite/hook/shift pipeline -/

/-- C2: an `RtlpAllocateHeapInternal` entry hit that passes the per-thread
filter (with the engine operations succeeding) rewrites argument 1 to
`Size + 32` before the callee runs, installs a return breakpoint at the
caller's return address filtered on the current thread, and registers that
return context; when the hook later fires with a nonzero RAX, it writes
`RAX + 16` back and records the shifted address as a tracked allocation of
the original requested size. -/
theorem C2_alloc_sanitizer (env : FdpSan.Env) (d : FdpSan.Data)
    (HeapHandle Size tid ra : Nat) (renv : FdpSan.RetEnv) (d2 : FdpSan.Data)
    (ht : env.thread_current = some tid)
    (hre : tid ∉ d.threads_reallocating)
    (hal : tid ∉ d.threads_allocating)
    (hw : env.write_arg_ok 1 = true)
    (hra : env.return_addr = some ra)
    (hsz : Size + FdpSan.add_size < FdpSan.two64)
    (hmem : (⟨ra, tid⟩ : FdpSan.ctx_t) ∈ d2.ret_ctxs)
    (hrax : renv.rax ≠ 0)
    (hwr : renv.write_rax_ok = true)
    (hraxlt : renv.rax + FdpSan.half_add_size < FdpSan.two64)
    (hfresh : FdpSan.heap_find d2.heap_datas ⟨HeapHandle, ⟨renv.rax + 16, tid⟩⟩ = none) :
    (FdpSan.on_RtlpAllocateHeapInternal env d HeapHandle Size).2 =
        [FdpSan.Effect.writeArg 1 (Size + 32), FdpSan.Effect.setBp ra tid]
    ∧ (⟨ra, tid⟩ : FdpSan.ctx_t) ∈
        (FdpSan.on_RtlpAllocateHeapInternal env d HeapHandle Size).1.ret_ctxs
    ∧ tid ∈ (FdpSan.on_RtlpAllocateHeapInternal env d HeapHandle Size).1.threads_allocating
    ∧ (FdpSan.alloc_return_hook renv d2 ra tid HeapHandle Size).2 =
        [FdpSan.Effect.writeRax (renv.rax + 16)]
    ∧ (⟨HeapHandle, ⟨renv.rax + 16, tid⟩⟩, Size) ∈
        (FdpSan.alloc_return_hook renv d2 ra tid HeapHandle Size).1.heap_datas := by
  have hadd : FdpSan.add64 Size FdpSan.add_size = Size + 32 := add64_of_lt hsz
  have hadd2 : FdpSan.add64 renv.rax FdpSan.half_add_size = renv.rax + 16 :=
    add64_of_lt hraxlt
  have hentry : FdpSan.on_RtlpAllocateHeapInternal env d HeapHandle Size =
      ({ d with
          threads_allocating := FdpSan.set_insert d.threads_allocating tid,
          ret_ctxs := FdpSan.ret_insert d.ret_ctxs ⟨ra, tid⟩ },
        [FdpSan.Effect.writeArg 1 (Size + 32), FdpSan.Effect.setBp ra tid]) := by
    simp [FdpSan.on_RtlpAllocateHeapInternal, ht, FdpSan.is_present, hre, hal,
      FdpSan.change_Size, hw, hra, hadd]
  have hhook : FdpSan.alloc_return_hook renv d2 ra tid HeapHandle Size =
      ({ d2 with
          threads_allocating := FdpSan.set_erase d2.threads_allocating tid,
          heap_datas :=
            (⟨HeapHandle, ⟨renv.rax + 16, tid⟩⟩, Size) :: d2.heap_datas,
          ret_ctxs := FdpSan.ret_erase d2.ret_ctxs ⟨ra, tid⟩ },
        [FdpSan.Effect.writeRax (renv.rax + 16)]) := by
    simp [FdpSan.alloc_return_hook, FdpSan.on_return_RtlpAllocateHeapInternal,
      FdpSan.add_to_ret_val, hmem, hrax, hwr, hadd2, FdpSan.heap_emplace, hfresh]
  rw [hentry, hhook]
  refine ⟨rfl, mem_ret_insert_self _ _, mem_set_insert_self _ _, rfl, ?_⟩
  exact List.mem_cons_self _ _

/-- C2 witness: the pipeline on concrete state. -/
theorem C2_alloc_sanitizer_witness :
    (FdpSan.on_RtlpAllocateHeapInternal ⟨some 7, fun _ => true, some 99⟩ ⟨[], [], [], []⟩
        5 8).2 = [FdpSan.Effect.writeArg 1 40, FdpSan.Effect.setBp 99 7]
    ∧ (⟨99, 7⟩ : FdpSan.ctx_t) ∈
        (FdpSan.on_RtlpAllocateHeapInternal ⟨some 7, fun _ => true, some 99⟩ ⟨[], [], [], []⟩
          5 8).1.ret_ctxs
    ∧ 7 ∈ (FdpSan.on_RtlpAllocateHeapInternal ⟨some 7, fun _ => true, some 99⟩
        ⟨[], [], [], []⟩ 5 8).1.threads_allocating
    ∧ (FdpSan.alloc_return_hook ⟨1000, true⟩ ⟨[7], [], [], [⟨99, 7⟩]⟩ 99 7 5 8).2 =
        [FdpSan.Effect.writeRax 1016]
    ∧ ((⟨5, ⟨1016, 7⟩⟩ : FdpSan.heap_ctx_t), 8) ∈
        (FdpSan.alloc_return_hook ⟨1000, true⟩ ⟨[7], [], [], [⟨99, 7⟩]⟩ 99 7 5 8).1.heap_datas := by
  have h := C2_alloc_sanitizer ⟨some 7, fun _ => true, some 99⟩ ⟨[], [], [], []⟩ 5 8 7 99
    ⟨1000, true⟩ ⟨[7], [], [], [⟨99, 7⟩]⟩ rfl (by decide) (by decide) rfl rfl (by decide)
    (by decide) (by decide) rfl (by decide) rfl
  exact h

/-! ## C3: re-entrancy filtering -/

/-- C3 counterexample: thread 7 is in-flight for the reallocation family
(`threads_reallocating = [7]`), yet the `RtlpReAllocateHeapInternal` entry
callback on thread 7 still rewrites the `Size` argument and installs a
return hook — the per-family in-flight filtering claimed for every heap
family does not happen here (only the `RtlpAllocateHeapInternal` callback
checks the flags). -/
theorem C3_counterexample :
    (7 : Nat) ∈ (FdpSan.Data.mk [] [7] [] []).threads_reallocating
    ∧ (FdpSan.on_RtlpReAllocateHeapInternal ⟨some 7, fun _ => true, some 99⟩
        ⟨[], [7], [], []⟩ 1 1000 8).2 =
        [FdpSan.Effect.writeArg 3 40, FdpSan.Effect.setBp 99 7]
    ∧ (FdpSan.on_RtlpReAllocateHeapInternal ⟨some 7, fun _ => true, some 99⟩
        ⟨[], [7], [], []⟩ 1 1000 8).1.ret_ctxs = [⟨99, 7⟩] := by
  decide

/-- C3 (amended): only the `RtlpAllocateHeapInternal` entry callback filters
re-entrancy, and it does so against both in-flight sets: when the current
thread is flagged as allocating or reallocating the callback returns with
no argument rewrite, no return hook and no state change — indistinguishable
from the benign no-op exit, hence a silent skip. A thread that passes the
filter is flagged as allocating, which is what filters the nested call. -/
theorem C3_reentrancy_amended (env : FdpSan.Env) (d : FdpSan.Data) (H S tid : Nat)
    (ht : env.thread_current = some tid) :
    ((tid ∈ d.threads_allocating ∨ tid ∈ d.threads_reallocating) →
        FdpSan.on_RtlpAllocateHeapInternal env d H S = (d, []))
    ∧ (tid ∉ d.threads_allocating → tid ∉ d.threads_reallocating →
        tid ∈ (FdpSan.on_RtlpAllocateHeapInternal env d H S).1.threads_allocating) := by
  constructor
  · intro hin
    rcases hin with hin | hin <;>
      simp [FdpSan.on_RtlpAllocateHeapInternal, ht, FdpSan.is_present, hin]
  · intro h1 h2
    cases hw : env.write_arg_ok 1 with
    | true =>
      cases hra : env.return_addr with
      | none =>
        simp [FdpSan.on_RtlpAllocateHeapInternal, ht, FdpSan.is_present, h1, h2,
          FdpSan.change_Size, hw, hra, mem_set_insert_self]
      | some ra =>
        simp [FdpSan.on_RtlpAllocateHeapInternal, ht, FdpSan.is_present, h1, h2,
          FdpSan.change_Size, hw, hra, mem_set_insert_self]
    | false =>
      simp [FdpSan.on_RtlpAllocateHeapInternal, ht, FdpSan.is_present, h1, h2,
        FdpSan.change_Size, hw, mem_set_insert_self]

/-- C3 witness: a nested alloc hit on an in-flight thread is a silent no-op,
and a first hit flags the thread. -/
theorem C3_reentrancy_amended_witness :
    FdpSan.on_RtlpAllocateHeapInternal ⟨some 7, fun _ => true, some 99⟩ ⟨[7], [], [], []⟩
        1 8 = (⟨[7], [], [], []⟩, [])
    ∧ 7 ∈ (FdpSan.on_RtlpAllocateHeapInternal ⟨some 7, fun _ => true, some 99⟩
        ⟨[], [], [], []⟩ 1 8).1.threads_allocating :=
  ⟨(C3_reentrancy_amended ⟨some 7, fun _ => true, some 99⟩ ⟨[7], [], [], []⟩ 1 8 7 rfl).1
      (Or.inl (by decide)),
    (C3_reentrancy_amended ⟨some 7, fun _ => true, some 99⟩ ⟨[], [], [], []⟩ 1 8 7 rfl).2
      (by decide) (by decide)⟩

/-! ## C10: tracked-vs-untracked branching of the remaining heap hooks -/

/-- C10: with the current thread resolved, `RtlFreeHeap`, `RtlSizeHeap`,
`RtlSetUserValueHeap` and `RtlGetUserInfoHeap` rewrite `BaseAddress`
(argument 2) to `BaseAddress - 16` exactly when `(HeapHandle, BaseAddress,
thread)` is not tracked; when it is tracked each callback returns at once
with no effect, no state change, and the tracking entry left in place. The
untracked free also leaves `heap_datas` unchanged (its erase hits a key
that is not there). -/
theorem C10_tracked_branching (env : FdpSan.Env) (d : FdpSan.Data) (H B tid : Nat)
    (ht : env.thread_current = some tid)
    (hw : env.write_arg_ok 2 = true)
    (hge : FdpSan.half_add_size ≤ B)
    (hlt : B < FdpSan.two64) :
    (FdpSan.is_addr_tracked d ⟨H, ⟨B, tid⟩⟩ = true →
        FdpSan.on_RtlFreeHeap env d H B = (d, [], true)
        ∧ FdpSan.on_RtlSizeHeap env d H B = (d, [], 0)
        ∧ FdpSan.on_RtlSetUserValueHeap env d H B = (d, [], false)
        ∧ FdpSan.on_RtlGetUserInfoHeap env d H B = (d, [], false))
    ∧ (FdpSan.is_addr_tracked d ⟨H, ⟨B, tid⟩⟩ = false →
        FdpSan.on_RtlFreeHeap env d H B =
            (d, [FdpSan.Effect.writeArg 2 (B - 16)], true)
        ∧ (FdpSan.on_RtlSizeHeap env d H B).2.1.head? =
            some (FdpSan.Effect.writeArg 2 (B - 16))
        ∧ FdpSan.on_RtlSetUserValueHeap env d H B =
            (d, [FdpSan.Effect.writeArg 2 (B - 16)], true)
        ∧ FdpSan.on_RtlGetUserInfoHeap env d H B =
            (d, [FdpSan.Effect.writeArg 2 (B - 16)], true)) := by
  have hsub : FdpSan.sub64 B FdpSan.half_add_size = B - 16 := sub64_half hge hlt
  constructor
  · intro htr
    refine ⟨?_, ?_, ?_, ?_⟩ <;>
      simp [FdpSan.on_RtlFreeHeap, FdpSan.on_RtlSizeHeap, FdpSan.on_RtlSetUserValueHeap,
        FdpSan.on_RtlGetUserInfoHeap, ht, htr]
  · intro htr
    have hfind : FdpSan.heap_find d.heap_datas ⟨H, ⟨B, tid⟩⟩ = none :=
      is_addr_tracked_false_heap_find htr
    refine ⟨?_, ?_, ?_, ?_⟩
    · have herase := heap_erase_of_untracked hfind
      simp [FdpSan.on_RtlFreeHeap, ht, htr, FdpSan.change_BaseAddress, hw, hsub, herase]
    · cases hra : env.return_addr with
      | none =>
        simp [FdpSan.on_RtlSizeHeap, ht, htr, FdpSan.change_BaseAddress, hw, hsub, hra]
      | some ra =>
        simp [FdpSan.on_RtlSizeHeap, ht, htr, FdpSan.change_BaseAddress, hw, hsub, hra]
    · simp [FdpSan.on_RtlSetUserValueHeap, ht, htr, FdpSan.change_BaseAddress, hw, hsub]
    · simp [FdpSan.on_RtlGetUserInfoHeap, ht, htr, FdpSan.change_BaseAddress, hw, hsub]

/-- C10 witness: both branches on concrete state — a tracked key is left
alone, an untracked one is unshifted by 16. -/
theorem C10_tracked_branching_witness :
    (FdpSan.on_RtlFreeHeap ⟨some 7, fun _ => true, some 99⟩
        ⟨[], [], [(⟨5, ⟨1016, 7⟩⟩, 8)], []⟩ 5 1016 =
      (⟨[], [], [(⟨5, ⟨1016, 7⟩⟩, 8)], []⟩, [], true))
    ∧ FdpSan.on_RtlFreeHeap ⟨some 7, fun _ => true, some 99⟩ ⟨[], [], [], []⟩ 5 1016 =
        (⟨[], [], [], []⟩, [FdpSan.Effect.writeArg 2 1000], true) :=
  ⟨((C10_tracked_branching ⟨some 7, fun _ => true, some 99⟩
      ⟨[], [], [(⟨5, ⟨1016, 7⟩⟩, 8)], []⟩ 5 1016 7 rfl rfl (by decide) (by decide)).1
      (by decide)).1,
    ((C10_tracked_branching ⟨some 7, fun _ => true, some 99⟩ ⟨[], [], [], []⟩ 5 1016 7
      rfl rfl (by decide) (by decide)).2 (by decide)).1⟩

/-! ## C5: PDB identification from image bytes -/

theorem slice_succ (l : Bytes) (i n : Nat) (h : i < l.length) :
    Pdb.slice l i (n + 1) = l.getD i 0 :: Pdb.slice l (i + 1) n := by
  rw [Pdb.slice, Pdb.slice, List.drop_eq_getElem_cons h, List.take_succ_cons,
    List.getD_eq_getElem l 0 h]

theorem slice4_eq (l : Bytes) (i : Nat) (h : i + 4 ≤ l.length) :
    Pdb.slice l i 4 = [l.getD i 0, l.getD (i + 1) 0, l.getD (i + 2) 0, l.getD (i + 3) 0] := by
  rw [slice_succ l i 3 (by omega), slice_succ l (i + 1) 2 (by omega),
    slice_succ l (i + 2) 1 (by omega), slice_succ l (i + 3) 0 (by omega)]
  rfl

theorem slice2_eq (l : Bytes) (i : Nat) (h : i + 2 ≤ l.length) :
    Pdb.slice l i 2 = [l.getD i 0, l.getD (i + 1) 0] := by
  rw [slice_succ l i 1 (by omega), slice_succ l (i + 1) 0 (by omega)]
  rfl

theorem getD_lt_256 {l : Bytes} (hb : ∀ b ∈ l, b < 256) (j : Nat) : l.getD j 0 < 256 := by
  by_cases hj : j < l.length
  · rw [List.getD_eq_getElem l 0 hj]
    exact hb _ (List.getElem_mem hj)
  · rw [List.getD_eq_default l 0 (by omega)]
    omega

theorem write_be32_read_le32 (l : Bytes) (i : Nat) (hb : ∀ b ∈ l, b < 256)
    (h4 : i + 4 ≤ l.length) :
    Pdb.write_be32 (Pdb.read_le32 l i) = (Pdb.slice l i 4).reverse := by
  have h0 := getD_lt_256 hb i
  have h1 := getD_lt_256 hb (i + 1)
  have h2 := getD_lt_256 hb (i + 2)
  have h3 := getD_lt_256 hb (i + 3)
  rw [slice4_eq l i h4, Pdb.read_le32, Pdb.write_be32]
  simp only [List.reverse_cons, List.reverse_nil, List.nil_append, List.cons_append,
    List.cons.injEq, and_true]
  refine ⟨by omega, by omega, by omega, by omega⟩

theorem write_be16_read_le16 (l : Bytes) (i : Nat) (hb : ∀ b ∈ l, b < 256)
    (h2 : i + 2 ≤ l.length) :
    Pdb.write_be16 (Pdb.read_le16 l i) = (Pdb.slice l i 2).reverse := by
  have ha := getD_lt_256 hb i
  have hc := getD_lt_256 hb (i + 1)
  rw [slice2_eq l i h2, Pdb.read_le16, Pdb.write_be16]
  simp only [List.reverse_cons, List.reverse_nil, List.nil_append, List.cons_append,
    List.cons.injEq, and_true]
  refine ⟨by omega, by omega⟩

theorem hex_upper_data_length : ∀ bs : Bytes,
    (bs.foldr (fun b acc => Pdb.hex_upper_chars.getD (b / 16 % 16) '0' ::
      Pdb.hex_upper_chars.getD (b % 16) '0' :: acc) []).length = 2 * bs.length
  | [] => rfl
  | b :: rest => by
    simp only [List.foldr_cons, List.length_cons]
    rw [hex_upper_data_length rest]
    omega

theorem hex_upper_length (bs : Bytes) : (Pdb.hex_upper bs).length = 2 * bs.length := by
  rw [Pdb.hex_upper]
  show (bs.foldr _ []).length = 2 * bs.length
  exact hex_upper_data_length bs

/-- C5: when the scan finds the RSDS magic at `p`, the header fits, the PDB
name following it is nul-terminated at `q` and printable, then
`identify_pdb` returns exactly `{ name := the name bytes, id := the 16 GUID
bytes as 32 uppercase hex characters followed by the age in decimal }`,
where the GUID's first three fields are byte-reversed (read little-endian,
written big-endian) and `Data4` is copied through. -/
theorem C5_identify_pdb (l : Bytes) (p q : Nat)
    (hb : ∀ b ∈ l, b < 256)
    (hfind : Pdb.find_rsds_from l 0 = some p)
    (hsize : 26 ≤ l.length - p)
    (hnul : Pdb.find_nul_from l (p + 24) = some q)
    (hname : (Pdb.slice l (p + 24) (q - (p + 24))).all Pdb.is_print = true) :
    Pdb.identify_pdb l =
      some ⟨Pdb.bytes_to_string (Pdb.slice l (p + 24) (q - (p + 24))),
        Pdb.hex_upper (Pdb.guid_bytes l p) ++ Nat.repr (Pdb.read_le32 l (p + 20))⟩
    ∧ Pdb.guid_bytes l p =
        (Pdb.slice l (p + 4) 4).reverse ++ (Pdb.slice l (p + 8) 2).reverse ++
          (Pdb.slice l (p + 10) 2).reverse ++ Pdb.slice l (p + 12) 8
    ∧ (Pdb.hex_upper (Pdb.guid_bytes l p)).length = 32 := by
  have hplen : p + 26 ≤ l.length := by omega
  have hparse : Pdb.parse_rsds_at l p =
      Pdb.ParseRes.ok
        ⟨Pdb.hex_upper (Pdb.guid_bytes l p) ++ Nat.repr (Pdb.read_le32 l (p + 20)),
          Pdb.bytes_to_string (Pdb.slice l (p + 24) (q - (p + 24)))⟩ := by
    rw [Pdb.parse_rsds_at, if_neg (by omega), hnul]
    dsimp only
    rw [Pdb.read_pdb_name, if_pos hname]
  refine ⟨?_, ?_, ?_⟩
  · rw [Pdb.identify_pdb, Pdb.read_pdb, Pdb.read_pdb_loop, hfind]
    dsimp only
    rw [hparse]
    rfl
  · rw [Pdb.guid_bytes,
      write_be32_read_le32 l (p + 4) hb (by omega),
      write_be16_read_le16 l (p + 8) hb (by omega),
      write_be16_read_le16 l (p + 10) hb (by omega)]
  · have hlen : (Pdb.guid_bytes l p).length = 16 := by
      rw [Pdb.guid_bytes]
      simp only [List.length_append, Pdb.write_be32, Pdb.write_be16, Pdb.slice,
        List.length_cons, List.length_nil, List.length_take, List.length_drop]
      omega
    rw [hex_upper_length, hlen]

/-- C5 witness: a concrete image whose RSDS header starts at offset 0 with
GUID bytes 1..16, age 7 and name `a`. -/
theorem C5_identify_pdb_witness :
    Pdb.identify_pdb
        ([82, 83, 68, 83] ++ [1, 2, 3, 4, 5, 6, 7, 8, 9, 10, 11, 12, 13, 14, 15, 16] ++
          [7, 0, 0, 0] ++ [97] ++ [0]) =
      some ⟨"a", "0403020106050807090A0B0C0D0E0F107"⟩ := by
  have h := (C5_identify_pdb
    ([82, 83, 68, 83] ++ [1, 2, 3, 4, 5, 6, 7, 8, 9, 10, 11, 12, 13, 14, 15, 16] ++
      [7, 0, 0, 0] ++ [97] ++ [0]) 0 25
    (by decide) (by decide) (by decide) (by decide) (by decide)).1
  rw [h]
  decide

end Icebox
